import Mathlib

/-!
Verification of the AetherChain Ledger & Consensus Core and the wallet layer.

The repository ships the wallet (`digital_wallet.py`), the integration layer
(`main.py`) and the test suite; the core modules (`core/transaction.py`,
`core/block.py`, `core/blockchain.py`, `consensus/proof_of_compute.py`,
`security/security_model.py`) are referenced by imports, tests and callers but
their sources are not present.  Those components are therefore modelled from
the specification (spec.md §3, §4), as flagged on each such definition.

Modelling conventions:
- SHA-256 and the asymmetric-signature primitives are opaque collaborators;
  they are passed as explicit function parameters (`H`, `signFn`, `verify`).
- Python floats are modelled as exact rationals (`ℚ`); `math.exp` is an opaque
  parameter.
- Python dicts are modelled as ordered association lists with the exact
  lookup / insert-or-replace / indexed-update (KeyError on a missing key)
  semantics of dict access.
- Wall-clock time and random nonces are environment inputs, passed explicitly.
- Fallible Python code (raise paths) returns `Except String _`.
-/

/-! ### Python dict model (ordered association list, `String` keys, `ℚ` values) -/

/-- `d.get(k)`: first binding of `k`, if any. -/
def dGet (m : List (String × ℚ)) (k : String) : Option ℚ :=
  match m with
  | [] => none
  | (k', v') :: rest => if k' = k then some v' else dGet rest k

/-- `d.get(k, default)`. -/
def dGetD (m : List (String × ℚ)) (k : String) (dflt : ℚ) : ℚ :=
  (dGet m k).getD dflt

/-- `d[k] = v`: replace in place, or append a fresh binding. -/
def dSet (m : List (String × ℚ)) (k : String) (v : ℚ) : List (String × ℚ) :=
  match m with
  | [] => [(k, v)]
  | (k', v') :: rest => if k' = k then (k, v) :: rest else (k', v') :: dSet rest k v

/-- `d[k] = f(d[k])` (as in `d[k] += x`): `none` models the `KeyError` raised
when `k` is absent. -/
def dUpd (m : List (String × ℚ)) (k : String) (f : ℚ → ℚ) :
    Option (List (String × ℚ)) :=
  match dGet m k with
  | none => none
  | some v => some (dSet m k (f v))

theorem dGet_dSet_self (m : List (String × ℚ)) (k : String) (v : ℚ) :
    dGet (dSet m k v) k = some v := by
  induction m with
  | nil => simp [dSet, dGet]
  | cons hd tl ih =>
    obtain ⟨k', v'⟩ := hd
    by_cases h : k' = k <;> simp [dSet, dGet, h, ih]

theorem dGet_dSet_ne (m : List (String × ℚ)) {k k' : String} (v : ℚ)
    (h : k' ≠ k) : dGet (dSet m k v) k' = dGet m k' := by
  induction m with
  | nil => simp [dSet, dGet, Ne.symm h]
  | cons hd tl ih =>
    obtain ⟨k₀, v₀⟩ := hd
    simp only [dSet]
    by_cases h₀ : k₀ = k
    · subst h₀
      simp [dGet, Ne.symm h]
    · simp only [if_neg h₀, dGet]
      by_cases h₁ : k₀ = k' <;> simp [h₁, ih]

/-! ### Transaction (modelled from the spec: `core/transaction.py` is not in
`src/`; spec.md §3 "Transaction", §4.1).  Input/output records are opaque
mappings in the source; they are modelled with the fields the wallet and test
layers use, each optional to keep `dict.get` semantics. -/

structure TxInput where
  tx_id : Option String := none
  output_index : Option ℕ := none
  address : Option String := none
  amount : Option ℚ := none
  currency : Option String := none
deriving DecidableEq

structure TxOutput where
  address : Option String := none
  amount : Option ℚ := none
  currency : Option String := none
deriving DecidableEq

/-- Modelled from the spec: a Transaction carries ordered inputs/outputs, an
optional public key, a signature set only by `sign`, a creation timestamp and
a random identity nonce (spec.md §3).  Key bytes are modelled as strings. -/
structure Transaction where
  inputs : List TxInput
  outputs : List TxOutput
  public_key : Option String
  signature : Option String
  timestamp : ℚ
  nonce : ℕ
deriving DecidableEq

/-- Modelled from the spec: the constructor populates inputs/outputs, public
key, timestamp and nonce; the signature is initially absent. -/
def mkTransaction (inputs : List TxInput) (outputs : List TxOutput)
    (pk : Option String) (now : ℚ) (nonceV : ℕ) : Transaction :=
  { inputs := inputs, outputs := outputs, public_key := pk,
    signature := none, timestamp := now, nonce := nonceV }

def serializeInput (i : TxInput) : String :=
  toString (i.tx_id, i.output_index, i.address, i.amount, i.currency)

def serializeOutput (o : TxOutput) : String :=
  toString (o.address, o.amount, o.currency)

/-- Modelled from the spec: canonical, order-preserving serialization of all
fields except the signature (spec.md §4.1 `serialize`). -/
def serializeTx (t : Transaction) : String :=
  toString (t.inputs.map serializeInput, t.outputs.map serializeOutput,
    t.public_key, t.timestamp, t.nonce)

/-- Modelled from the spec: `Transaction.hash()` digests the canonical
serialization, which excludes the signature (spec.md §3).  `H` is the opaque
SHA-256 primitive. -/
def txHash (H : String → String) (t : Transaction) : String :=
  H (serializeTx t)

/-- Modelled from the spec: `sign` fails when inputs or outputs are empty,
otherwise stores a signature over `hash()` (spec.md §4.1).  `signFn` is the
opaque asymmetric-signature primitive. -/
def Transaction.sign (H : String → String) (signFn : String → String → String)
    (privKey : String) (t : Transaction) : Except String Transaction :=
  if t.inputs.isEmpty || t.outputs.isEmpty then
    Except.error "SigningError"
  else
    Except.ok { t with signature := some (signFn privKey (txHash H t)) }

/-! ### Block (modelled from the spec: `core/block.py` is not in `src/`;
spec.md §3 "Block", §4.2).  The optional post-mining telemetry annotation set
by `main.AetherChain.mine_block` is not modelled: no claim concerns it. -/

/-- Left-to-right pairing of adjacent digests within one Merkle level; a
trailing unpaired digest is duplicated (`[a] ↦ [H (a ++ a)]`). -/
def merkleStep (H : String → String) : List String → List String
  | a :: b :: rest => H (a ++ b) :: merkleStep H rest
  | [a] => [H (a ++ a)]
  | [] => []

theorem merkleStep_length (H : String → String) :
    ∀ l : List String, (merkleStep H l).length = (l.length + 1) / 2
  | [] => by simp [merkleStep]
  | [a] => by simp [merkleStep]
  | a :: b :: rest => by
    simp only [merkleStep, List.length_cons, merkleStep_length H rest]
    omega

/-- Modelled from the spec: repeat the pairing level until exactly one digest
remains (spec.md §4.2). -/
def merkleReduce (H : String → String) : List String → String
  | [] => H ""
  | [a] => a
  | a :: b :: rest => merkleReduce H (merkleStep H (a :: b :: rest))
termination_by l => l.length
decreasing_by
  simp only [merkleStep_length, List.length_cons]
  omega

/-- Modelled from the spec: the Merkle root of a transaction list — the digest
of the empty string for an empty list, otherwise the pairing reduction over
the transaction hashes (spec.md §4.2). -/
def calculate_merkle_root (H : String → String) (txs : List Transaction) :
    String :=
  let hs := txs.map (txHash H)
  if hs.isEmpty then H "" else merkleReduce H hs

structure Block where
  index : ℕ
  transactions : List Transaction
  previous_hash : String
  merkle_root : String
  timestamp : ℚ
  nonce : ℕ
deriving DecidableEq

/-- Modelled from the spec: `Block(index, transactions, previous_hash)`
computes the Merkle root once at construction and starts `nonce = 0`
(spec.md §4.2). -/
def mkBlock (H : String → String) (index : ℕ) (txs : List Transaction)
    (prev : String) (ts : ℚ) : Block :=
  { index := index, transactions := txs, previous_hash := prev,
    merkle_root := calculate_merkle_root H txs, timestamp := ts, nonce := 0 }

/-- Modelled from the spec: `Block.hash()` digests
`(index, previous_hash, merkle_root, timestamp, nonce)` (spec.md §3). -/
def blockHash (H : String → String) (b : Block) : String :=
  H (toString (b.index, b.previous_hash, b.merkle_root, b.timestamp, b.nonce))

/-- The 64-character all-zero genesis sentinel. -/
def zeros64 : String := String.mk (List.replicate 64 '0')

/-! ### Blockchain (modelled from the spec: `core/blockchain.py` is not in
`src/`; spec.md §3 "Blockchain", §4.4). -/

structure Blockchain where
  chain : List Block
  pending_transactions : List Transaction
  difficulty : ℕ
deriving DecidableEq

/-- Modelled from the spec: the genesis block has index 0, no transactions and
the all-zero previous hash (spec.md §3). -/
def genesisBlock (H : String → String) (t0 : ℚ) : Block :=
  mkBlock H 0 [] zeros64 t0

/-- Modelled from the spec: a fresh chain holds exactly the genesis block and
an empty mempool (spec.md §3, §8 "Chain growth"). -/
def initBlockchain (H : String → String) (d : ℕ) (t0 : ℚ) : Blockchain :=
  { chain := [genesisBlock H t0], pending_transactions := [], difficulty := d }

/-- Modelled from the spec: appends to the mempool, returning false without
raising when the structural validation (non-empty inputs/outputs) fails
(spec.md §4.4). -/
def add_transaction (tx : Transaction) (bc : Blockchain) : Bool × Blockchain :=
  if tx.inputs.isEmpty || tx.outputs.isEmpty then (false, bc)
  else (true, { bc with pending_transactions := bc.pending_transactions ++ [tx] })

/-- Modelled from the spec: a fixed block-reward amount (spec.md §4.4; the
concrete value is unspecified there). -/
def block_reward : ℚ := 1

/-- Environment inputs consumed by one mining call: wall-clock time, the
reward transaction's random identity nonce, and the nonce found by the
proof-of-compute search (the unbounded `solve_puzzle` loop is modelled as an
oracle input here; its first-solution property is proved separately). -/
structure MineEnv where
  time : ℚ
  rewardNonce : ℕ
  powNonce : ℕ
deriving DecidableEq

/-- Modelled from the spec: the coinbase-style reward transaction — empty
inputs, one output crediting the reward address (spec.md §4.4, §9). -/
def rewardTx (env : MineEnv) (addr : String) : Transaction :=
  { inputs := [],
    outputs := [{ address := some addr, amount := some block_reward,
                  currency := some "AETH" }],
    public_key := none, signature := none,
    timestamp := env.time, nonce := env.rewardNonce }

/-- Modelled from the spec: `mine_pending_transactions` returns the no-block
sentinel on an empty mempool; otherwise it batches the mempool plus a reward
transaction into a block at `index = len(chain)` linked to `chain[-1].hash()`,
stores the mined nonce, appends the block and clears the mempool (spec.md
§4.4).  The `getLast? = none` case is unreachable from construction (the
genesis block is always present; Python would raise `IndexError`). -/
def mine_pending_transactions (H : String → String) (env : MineEnv)
    (addr : String) (bc : Blockchain) : Option Block × Blockchain :=
  if bc.pending_transactions.isEmpty then (none, bc)
  else
    match bc.chain.getLast? with
    | none => (none, bc)
    | some lastB =>
      let txs := bc.pending_transactions ++ [rewardTx env addr]
      let b0 := mkBlock H bc.chain.length txs (blockHash H lastB) env.time
      let b := { b0 with nonce := env.powNonce }
      (some b, { bc with chain := bc.chain ++ [b], pending_transactions := [] })

/-! ### SecurityModel (modelled from the spec: `security/security_model.py` is
not in `src/`; spec.md §3 "SecurityModel", §4.5). -/

structure SecurityModel where
  blockchain : Blockchain
  executed_tx_ids : List String
deriving DecidableEq

/-- Modelled from the spec: records `tx.hash()` and returns true the first
time an identity is seen; returns false, without mutating state, on every
later call with the same identity.  Total — the check never raises
(spec.md §4.5, §7). -/
def prevent_double_execution (H : String → String) (t : Transaction)
    (s : SecurityModel) : Bool × SecurityModel :=
  let h := txHash H t
  if h ∈ s.executed_tx_ids then (false, s)
  else (true, { s with executed_tx_ids := h :: s.executed_tx_ids })

/-- C1: the first `prevent_double_execution` call for a transaction identity
returns true and records its hash; any call whose identity hash is already
recorded returns false and leaves the state unchanged; a recorded hash is
never removed by later calls; and the identity hash depends only on inputs,
outputs, public key, timestamp and nonce (the signature is excluded).  The
check is a total function, so no call raises. -/
theorem prevent_double_execution_spec (H : String → String)
    (s : SecurityModel) (t : Transaction) :
    (txHash H t ∉ s.executed_tx_ids →
      prevent_double_execution H t s =
        (true, { s with executed_tx_ids := txHash H t :: s.executed_tx_ids })) ∧
    (∀ t' : Transaction, txHash H t' = txHash H t →
      txHash H t ∈ s.executed_tx_ids →
      prevent_double_execution H t' s = (false, s)) ∧
    (∀ (t' : Transaction) (s' : SecurityModel),
      txHash H t ∈ s'.executed_tx_ids →
      txHash H t ∈ (prevent_double_execution H t' s').2.executed_tx_ids) ∧
    (∀ t' : Transaction, t'.inputs = t.inputs → t'.outputs = t.outputs →
      t'.public_key = t.public_key → t'.timestamp = t.timestamp →
      t'.nonce = t.nonce → txHash H t' = txHash H t) := by
  refine ⟨fun hnot => ?_, fun t' ht' hmem => ?_, fun t' s' hmem => ?_,
    fun t' h1 h2 h3 h4 h5 => ?_⟩
  · simp [prevent_double_execution, hnot]
  · simp [prevent_double_execution, ht', hmem]
  · by_cases hc : txHash H t' ∈ s'.executed_tx_ids
    · simpa [prevent_double_execution, hc] using hmem
    · simp [prevent_double_execution, hc, List.mem_cons, hmem]
  · simp [txHash, serializeTx, h1, h2, h3, h4, h5]

/-- Witness for C1 at a concrete fresh state and transaction. -/
def txW : Transaction :=
  mkTransaction [{ tx_id := some "input1", output_index := some 0,
                   amount := some 100 }]
    [{ address := some "addr1", amount := some 100 }] none 0 7

def hashW : String → String := fun s => toString s.length

def secW : SecurityModel :=
  { blockchain := initBlockchain hashW 1 0, executed_tx_ids := [] }

theorem prevent_double_execution_spec_witness :
    prevent_double_execution hashW txW secW =
      (true, { secW with executed_tx_ids := [txHash hashW txW] }) :=
  (prevent_double_execution_spec hashW secW txW).1 (by decide)

/-! ### Reachable Blockchain states (claim C2) -/

/-- One mutating operation on a `Blockchain`, with its environment inputs. -/
inductive BcOp where
  | addTx (tx : Transaction)
  | mine (env : MineEnv) (addr : String)
deriving DecidableEq

def applyOp (H : String → String) (bc : Blockchain) : BcOp → Blockchain
  | .addTx tx => (add_transaction tx bc).2
  | .mine env addr => (mine_pending_transactions H env addr bc).2

/-- The state after an arbitrary sequence of operations from `bc`. -/
def applyOps (H : String → String) (bc : Blockchain) (ops : List BcOp) :
    Blockchain :=
  ops.foldl (applyOp H) bc

/-- The chain invariant: the genesis block `g` heads the chain and every block
links to its predecessor's hash. -/
def ChainInv (H : String → String) (g : Block) (bc : Blockchain) : Prop :=
  bc.chain.head? = some g ∧
  bc.chain.Chain' (fun a b => b.previous_hash = blockHash H a)

theorem chainInv_init (H : String → String) (d : ℕ) (t0 : ℚ) :
    ChainInv H (genesisBlock H t0) (initBlockchain H d t0) :=
  ⟨rfl, List.chain'_singleton _⟩

theorem chainInv_applyOp (H : String → String) {g : Block} {bc : Blockchain}
    (h : ChainInv H g bc) (op : BcOp) : ChainInv H g (applyOp H bc op) := by
  cases op with
  | addTx tx =>
    simp only [applyOp, add_transaction]
    split <;> exact h
  | mine env addr =>
    simp only [applyOp, mine_pending_transactions]
    split
    · exact h
    · rcases hl : bc.chain.getLast? with _ | lastB
      · simpa [hl] using h
      · simp only [hl]
        have hne : bc.chain ≠ [] := by
          intro hnil
          rw [hnil] at hl
          simp at hl
        constructor
        · simpa [List.head?_append_of_ne_nil _ hne] using h.1
        · rw [List.chain'_append]
          refine ⟨h.2, List.chain'_singleton _, ?_⟩
          intro x hx y hy
          rw [Option.mem_def, hl, Option.some.injEq] at hx
          rw [Option.mem_def, List.head?_cons, Option.some.injEq] at hy
          subst hx
          subst hy
          rfl

theorem chainInv_applyOps (H : String → String) {g : Block}
    (ops : List BcOp) :
    ∀ {bc : Blockchain}, ChainInv H g bc → ChainInv H g (applyOps H bc ops) := by
  induction ops with
  | nil => intro bc h; exact h
  | cons op rest ih =>
    intro bc h
    exact ih (chainInv_applyOp H h op)

/-- C2: in every state reachable from a fresh `Blockchain` by any sequence of
`add_transaction` and `mine_pending_transactions` calls, the head of the chain
is the fixed genesis block — whose index is 0 and whose `previous_hash` is the
64-character all-zero sentinel — and every later block's `previous_hash` is
the hash of its predecessor. -/
theorem blockchain_chain_invariant (H : String → String) (d : ℕ) (t0 : ℚ)
    (ops : List BcOp) :
    (applyOps H (initBlockchain H d t0) ops).chain.head? =
      some (genesisBlock H t0) ∧
    (genesisBlock H t0).index = 0 ∧
    (genesisBlock H t0).previous_hash = zeros64 ∧
    ∀ (i : ℕ) (h : i + 1 < (applyOps H (initBlockchain H d t0) ops).chain.length),
      ((applyOps H (initBlockchain H d t0) ops).chain.get ⟨i + 1, h⟩).previous_hash =
        blockHash H
          ((applyOps H (initBlockchain H d t0) ops).chain.get
            ⟨i, Nat.lt_of_succ_lt h⟩) := by
  obtain ⟨h1, h2⟩ := chainInv_applyOps H ops (chainInv_init H d t0)
  refine ⟨h1, rfl, rfl, ?_⟩
  intro i h
  exact List.chain'_iff_get.mp h2 i (by omega)

def opsW : List BcOp := [BcOp.addTx txW, BcOp.mine ⟨5, 3, 42⟩ "miner_addr"]

/-- Witness for C2: after one admission and one mining call the second block
links to the genesis block's hash. -/
theorem blockchain_chain_invariant_witness :
    ((applyOps hashW (initBlockchain hashW 1 0) opsW).chain.get
        ⟨1, by decide⟩).previous_hash =
      blockHash hashW
        ((applyOps hashW (initBlockchain hashW 1 0) opsW).chain.get
          ⟨0, by decide⟩) :=
  (blockchain_chain_invariant hashW 1 0 opsW).2.2.2 0 (by decide)

/-- C7: mining with an empty mempool returns the no-block sentinel and leaves
the whole `Blockchain` state (chain, mempool, difficulty) unchanged. -/
theorem mine_empty_mempool_spec (H : String → String) (env : MineEnv)
    (addr : String) (bc : Blockchain) (h : bc.pending_transactions = []) :
    mine_pending_transactions H env addr bc = (none, bc) := by
  simp [mine_pending_transactions, h]

/-- Witness for C7 on a fresh chain. -/
theorem mine_empty_mempool_spec_witness :
    mine_pending_transactions hashW ⟨0, 0, 0⟩ "addr"
        (initBlockchain hashW 1 0) =
      (none, initBlockchain hashW 1 0) :=
  mine_empty_mempool_spec hashW ⟨0, 0, 0⟩ "addr" (initBlockchain hashW 1 0) rfl

/-! ### ProofOfCompute (modelled from the spec: `consensus/proof_of_compute.py`
is not in `src/`; spec.md §3 "ProofOfCompute", §4.3). -/

/-- Modelled from the spec: the target is a string of `difficulty` zero
characters (spec.md §4.3). -/
def calculate_target (d : ℕ) : String :=
  String.mk (List.replicate d '0')

/-- A digest is valid for difficulty `d` iff its prefix of length `d` consists
of zero characters, i.e. it has at least `d` leading zero hex characters
(spec.md §4.3). -/
def hashMeetsTarget (d : ℕ) (digest : String) : Bool :=
  decide (digest.toList.take d = (calculate_target d).toList)

/-- Candidate nonce `n` solves the puzzle for `header` at difficulty `d`. -/
def puzzleValidNonce (H : String → String) (d : ℕ) (header : String)
    (n : ℕ) : Prop :=
  hashMeetsTarget d (H (header ++ toString n)) = true

instance (H : String → String) (d : ℕ) (header : String) :
    DecidablePred (puzzleValidNonce H d header) :=
  fun _ => inferInstanceAs (Decidable (_ = true))

/-- Modelled from the spec: `solve_puzzle` iterates candidate nonces from 0
and returns the first `(nonce, digest)` pair whose digest meets the target
(spec.md §4.3).  The unbounded Python loop terminates exactly when a valid
nonce exists, which is the hypothesis `h`. -/
def solve_puzzle (H : String → String) (d : ℕ) (header : String)
    (h : ∃ n, puzzleValidNonce H d header n) : ℕ × String :=
  (Nat.find h, H (header ++ toString (Nat.find h)))

/-- C4: whenever the puzzle is solvable, `solve_puzzle` returns the smallest
nonce whose digest has at least `d` leading zero hex characters, together
with that digest; for difficulty 0 the very first candidate, nonce 0, is
returned at once. -/
theorem solve_puzzle_spec (H : String → String) (d : ℕ) (header : String)
    (h : ∃ n, puzzleValidNonce H d header n) :
    puzzleValidNonce H d header (solve_puzzle H d header h).1 ∧
    (∀ m : ℕ, m < (solve_puzzle H d header h).1 →
      ¬ puzzleValidNonce H d header m) ∧
    (solve_puzzle H d header h).2 =
      H (header ++ toString (solve_puzzle H d header h).1) ∧
    (d = 0 → solve_puzzle H d header h = (0, H (header ++ "0"))) := by
  refine ⟨Nat.find_spec h, fun m hm => Nat.find_min h hm, rfl, fun hd => ?_⟩
  subst hd
  have h0 : puzzleValidNonce H 0 header 0 := by
    simp [puzzleValidNonce, hashMeetsTarget, calculate_target]
  have hf : Nat.find h = 0 := Nat.find_eq_zero h |>.mpr h0
  simp only [solve_puzzle, hf]
  rfl

def hashC4 : String → String := fun _ => "00ab"

def solvableC4 : ∃ n, puzzleValidNonce hashC4 0 "test_header" n :=
  ⟨0, by decide⟩

/-- Witness for C4 at difficulty 0: nonce 0 is returned immediately. -/
theorem solve_puzzle_spec_witness :
    solve_puzzle hashC4 0 "test_header" solvableC4 =
      (0, hashC4 ("test_header" ++ "0")) :=
  (solve_puzzle_spec hashC4 0 "test_header" solvableC4).2.2.2 rfl

/-- Modelled from the spec: the target block time constant; the test suite's
commentary fixes it at 60 seconds (spec.md §4.3, §8). -/
def target_block_time : ℚ := 60

/-- Consecutive inter-block intervals of a timestamp sequence. -/
def intervals (ts : List ℚ) : List ℚ :=
  List.zipWith (fun a b => b - a) ts ts.tail

/-- Modelled from the spec: `adjust_difficulty` compares the average
inter-block interval with the target block time and moves the difficulty by
at most one step, flooring at 1 (spec.md §4.3).  The behaviour on fewer than
two timestamps is unspecified; it is modelled as "no adjustment". -/
def adjust_difficulty (d : ℕ) (ts : List ℚ) : ℕ :=
  let ds := intervals ts
  if ds.isEmpty then d
  else
    let avg := ds.sum / (ds.length : ℚ)
    if avg < target_block_time then d + 1
    else if target_block_time < avg then max (d - 1) 1
    else d

theorem intervals_length (ts : List ℚ) :
    (intervals ts).length = ts.length - 1 := by
  cases ts with
  | nil => simp [intervals]
  | cons a rest => simp [intervals, List.length_zipWith]

theorem intervals_sum (ts : List ℚ) (h : ts ≠ []) :
    (intervals ts).sum = ts.getLast h - ts.head h := by
  induction ts with
  | nil => exact absurd rfl h
  | cons a rest ih =>
    cases rest with
    | nil => simp [intervals]
    | cons b rest' =>
      have hne : b :: rest' ≠ [] := by simp
      have : intervals (a :: b :: rest') = (b - a) :: intervals (b :: rest') := by
        simp [intervals]
      rw [this, List.sum_cons, ih hne, List.getLast_cons hne]
      simp only [List.head_cons]
      ring

/-- C5: for at least two timestamps, `adjust_difficulty` returns `d + 1` when
the average inter-block interval `(last - first)/(n - 1)` is below the
60-second target, `max (d - 1) 1` when it is above, and `d` when it is equal
— no other adjustment is applied. -/
theorem adjust_difficulty_spec (d : ℕ) (ts : List ℚ) (h2 : 2 ≤ ts.length) :
    (∀ hne : ts ≠ [],
      (ts.getLast hne - ts.head hne) / ((ts.length : ℚ) - 1) <
          target_block_time →
        adjust_difficulty d ts = d + 1) ∧
    (∀ hne : ts ≠ [],
      target_block_time <
          (ts.getLast hne - ts.head hne) / ((ts.length : ℚ) - 1) →
        adjust_difficulty d ts = max (d - 1) 1) ∧
    (∀ hne : ts ≠ [],
      (ts.getLast hne - ts.head hne) / ((ts.length : ℚ) - 1) =
          target_block_time →
        adjust_difficulty d ts = d) := by
  have hne0 : ts ≠ [] := by
    intro hnil
    rw [hnil] at h2
    simp at h2
  have hlen : (intervals ts).length = ts.length - 1 := intervals_length ts
  have hnemp : (intervals ts).isEmpty = false := by
    rw [List.isEmpty_eq_false_iff_exists_mem]
    have : 0 < (intervals ts).length := by omega
    exact List.exists_mem_of_length_pos this
  have hcast : ((intervals ts).length : ℚ) = (ts.length : ℚ) - 1 := by
    rw [hlen]
    have : 1 ≤ ts.length := by omega
    push_cast [this]
    ring
  have havg : (intervals ts).sum / ((intervals ts).length : ℚ) =
      (ts.getLast hne0 - ts.head hne0) / ((ts.length : ℚ) - 1) := by
    rw [intervals_sum ts hne0, hcast]
  refine ⟨fun hne hlt => ?_, fun hne hgt => ?_, fun hne heq => ?_⟩
  · rw [adjust_difficulty]
    simp only [hnemp, Bool.false_eq_true, if_false, havg]
    rw [if_pos hlt]
  · rw [adjust_difficulty]
    simp only [hnemp, Bool.false_eq_true, if_false, havg]
    rw [if_neg (not_lt.mpr (le_of_lt hgt)), if_pos hgt]
  · rw [adjust_difficulty]
    simp only [hnemp, Bool.false_eq_true, if_false, havg]
    rw [if_neg (not_lt.mpr (le_of_eq heq.symm)),
      if_neg (not_lt.mpr (le_of_eq heq))]

/-- Witness for C5: ten timestamps spaced 30 seconds apart are below the
60-second target, so the difficulty increases by one. -/
theorem adjust_difficulty_spec_witness :
    adjust_difficulty 1 [0, 30, 60, 90, 120, 150, 180, 210, 240, 270] = 2 :=
  (adjust_difficulty_spec 1 [0, 30, 60, 90, 120, 150, 180, 210, 240, 270]
      (by decide)).1 (by decide) (by norm_num [target_block_time])

/-- Modelled from the spec: the classical Poisson catch-up probability with
`math.exp` as the opaque parameter `expNeg` (applied to the Poisson mean
`lam`), clamped to `[0, 1]`, and defined as 1 outright for an attacker with
at least half the hashing power (spec.md §4.5). -/
def calculate_attack_probability (expNeg : ℚ → ℚ) (q : ℚ) (z : ℕ) : ℚ :=
  if 1 / 2 ≤ q then 1
  else
    let p := 1 - q
    let r := q / p
    let lam := (z : ℚ) * r
    let s := (Finset.range (z + 1)).sum fun k =>
      lam ^ k * expNeg lam / (Nat.factorial k : ℚ) * (1 - r ^ (z - k))
    max 0 (min 1 (1 - s))

/-- C3: for any attacker fraction `0 ≤ q < 1` and any confirmation count `z`
the attack probability lies in `[0, 1]`, and it equals exactly 1 whenever
`q ≥ 1/2` — for every value of the opaque exponential. -/
theorem calculate_attack_probability_spec (expNeg : ℚ → ℚ) (q : ℚ) (z : ℕ)
    (_h0 : 0 ≤ q) (_h1 : q < 1) :
    (0 ≤ calculate_attack_probability expNeg q z ∧
      calculate_attack_probability expNeg q z ≤ 1) ∧
    (1 / 2 ≤ q → calculate_attack_probability expNeg q z = 1) := by
  by_cases hq : 1 / 2 ≤ q
  · rw [calculate_attack_probability, if_pos hq]
    exact ⟨⟨zero_le_one, le_refl 1⟩, fun _ => rfl⟩
  · rw [calculate_attack_probability, if_neg hq]
    refine ⟨⟨le_max_left 0 _, max_le zero_le_one (min_le_left 1 _)⟩,
      fun hc => absurd hc hq⟩

/-- Witness for C3 at `q = 45/100`, `z = 6` (the test fixture) and at a
majority attacker `q = 3/4`. -/
theorem calculate_attack_probability_spec_witness :
    (0 ≤ calculate_attack_probability (fun _ => 0) (45 / 100) 6 ∧
      calculate_attack_probability (fun _ => 0) (45 / 100) 6 ≤ 1) ∧
    calculate_attack_probability (fun _ => 0) (3 / 4) 0 = 1 :=
  ⟨(calculate_attack_probability_spec (fun _ => 0) (45 / 100) 6 (by norm_num)
      (by norm_num)).1,
    (calculate_attack_probability_spec (fun _ => 0) (3 / 4) 0 (by norm_num)
      (by norm_num)).2 (by norm_num)⟩

/-! ### Claim C6: the Merkle reduction, restated per the claim's words —
duplicate the last digest of every odd-count level, then pair adjacent
digests left-to-right — and proved equal to the construction-time
computation. -/

/-- Pair adjacent digests of a level left-to-right. -/
def pairUp (H : String → String) : List String → List String
  | a :: b :: rest => H (a ++ b) :: pairUp H rest
  | _ => []

/-- Duplicate the last digest when the level has an odd count. -/
def dupLastIfOdd (l : List String) : List String :=
  if l.length % 2 = 1 then
    match l.getLast? with
    | none => l
    | some a => l ++ [a]
  else l

theorem pairUp_length (H : String → String) :
    ∀ l : List String, (pairUp H l).length = l.length / 2
  | [] => by simp [pairUp]
  | [a] => by simp [pairUp]
  | a :: b :: rest => by
    simp only [pairUp, List.length_cons, pairUp_length H rest]
    omega

theorem dupLastIfOdd_cons_cons (a b : String) (l : List String) :
    dupLastIfOdd (a :: b :: l) = a :: b :: dupLastIfOdd l := by
  rw [dupLastIfOdd, dupLastIfOdd]
  have hmod : (a :: b :: l).length % 2 = l.length % 2 := by
    simp only [List.length_cons]
    omega
  rw [hmod]
  by_cases hp : l.length % 2 = 1
  · rw [if_pos hp, if_pos hp]
    have hne : l ≠ [] := by
      intro h
      subst h
      simp at hp
    cases hg : l.getLast? with
    | none => exact absurd (List.getLast?_eq_none_iff.mp hg) hne
    | some x =>
      have hg2 : (a :: b :: l).getLast? = some x := by
        rw [List.getLast?_cons_cons]
        cases l with
        | nil => exact absurd rfl hne
        | cons c l' => rw [List.getLast?_cons_cons]; exact hg
      simp [hg, hg2]
  · rw [if_neg hp, if_neg hp]

theorem pairUp_dupLastIfOdd_length (H : String → String) (l : List String) :
    (pairUp H (dupLastIfOdd l)).length = (l.length + 1) / 2 := by
  rw [pairUp_length, dupLastIfOdd]
  by_cases hp : l.length % 2 = 1
  · rw [if_pos hp]
    have hne : l ≠ [] := by
      intro h
      subst h
      simp at hp
    cases hg : l.getLast? with
    | none => exact absurd (List.getLast?_eq_none_iff.mp hg) hne
    | some x =>
      simp [hg]
  · rw [if_neg hp]
    omega

/-- The claim's reduction: repeatedly duplicate-then-pair until exactly one
digest remains; the empty list maps to the digest of the empty string. -/
def merkleClaimReduce (H : String → String) : List String → String
  | [] => H ""
  | [a] => a
  | a :: b :: rest => merkleClaimReduce H (pairUp H (dupLastIfOdd (a :: b :: rest)))
termination_by l => l.length
decreasing_by
  rw [pairUp_dupLastIfOdd_length]
  simp only [List.length_cons]
  omega

theorem merkleStep_eq_pairUp_dupLastIfOdd (H : String → String) :
    ∀ l : List String, merkleStep H l = pairUp H (dupLastIfOdd l)
  | [] => by simp [merkleStep, dupLastIfOdd, pairUp]
  | [a] => by simp [merkleStep, dupLastIfOdd, pairUp]
  | a :: b :: rest => by
    rw [merkleStep, dupLastIfOdd_cons_cons, pairUp,
      merkleStep_eq_pairUp_dupLastIfOdd H rest]

theorem merkleReduce_eq_claimReduce (H : String → String) :
    ∀ l : List String, merkleReduce H l = merkleClaimReduce H l
  | [] => by rw [merkleReduce, merkleClaimReduce]
  | [a] => by rw [merkleReduce, merkleClaimReduce]
  | a :: b :: rest => by
    rw [merkleReduce, merkleClaimReduce, merkleStep_eq_pairUp_dupLastIfOdd]
    exact merkleReduce_eq_claimReduce H (pairUp H (dupLastIfOdd (a :: b :: rest)))
termination_by l => l.length
decreasing_by
  rw [pairUp_dupLastIfOdd_length]
  simp only [List.length_cons]
  omega

/-- C6: the Merkle root computed at `Block` construction is exactly the
claimed reduction over the transactions' hashes: the digest of the empty
string for an empty list, and otherwise the repeated duplicate-last-if-odd /
pair-adjacent-and-rehash reduction down to a single digest. -/
theorem block_merkle_root_spec (H : String → String) (index : ℕ)
    (txs : List Transaction) (prev : String) (ts : ℚ) :
    (mkBlock H index txs prev ts).merkle_root =
      if txs.map (txHash H) = [] then H ""
      else merkleClaimReduce H (txs.map (txHash H)) := by
  show calculate_merkle_root H txs = _
  rw [calculate_merkle_root]
  simp only [List.isEmpty_iff]
  split
  · simp [*]
  · exact merkleReduce_eq_claimReduce H (txs.map (txHash H))

/-! ### DigitalWallet (`src/digital_wallet.py`).  This component's source is
present; the definitions below are its direct translation.  The key pair is
external input (the `cryptography` primitives are opaque), wall-clock time is
the explicit `now` argument, and Python's `float` is modelled as `ℚ`. -/

/-- One entry of `transaction_history` (`rtype` renders Python's `type` key;
fields absent from a record default to `none`). -/
structure HistoryRecord where
  rtype : String
  amount : ℚ
  currency : String
  timestamp : ℚ
  balance_after : ℚ
  fee : Option ℚ := none
  recipient : Option String := none
  transaction_id : Option String := none
  sender : Option (Option String) := none
deriving DecidableEq

structure DigitalWallet where
  wallet_id : String
  address : String
  private_key : String
  public_key : String
  balances : List (String × ℚ)
  supported_currencies : List String
  transaction_history : List HistoryRecord
deriving DecidableEq

/-- `['AETH', 'BTC', 'ETH', 'USDC']` (src/digital_wallet.py line 44). -/
def supportedCurrencies : List String := ["AETH", "BTC", "ETH", "USDC"]

/-- `DigitalWallet.__init__` and `_generate_keypair` (lines 35-70): the
address is the first 40 hex characters of the public key's digest and every
supported currency starts at balance 0. -/
def mkWallet (H : String → String) (wallet_id privKey pubKey : String) :
    DigitalWallet :=
  { wallet_id := wallet_id,
    address := (H pubKey).take 40,
    private_key := privKey,
    public_key := pubKey,
    balances := supportedCurrencies.map fun c => (c, 0),
    supported_currencies := supportedCurrencies,
    transaction_history := [] }

/-- `DigitalWallet.deposit` (lines 102-128). -/
def deposit (amount : ℚ) (currency : String) (now : ℚ) (w : DigitalWallet) :
    Except String DigitalWallet :=
  if currency ∉ w.supported_currencies then Except.error "Unsupported currency"
  else if amount ≤ 0 then Except.error "Deposit amount must be positive"
  else
    match dUpd w.balances currency (fun v => v + amount) with
    | none => Except.error ("KeyError: " ++ currency)
    | some b' =>
      Except.ok
        { w with
          balances := b',
          transaction_history := w.transaction_history ++
            [{ rtype := "deposit", amount := amount, currency := currency,
               timestamp := now, balance_after := dGetD b' currency 0 }] }

/-- `DigitalWallet.withdraw` (lines 130-164): unsupported currency and
non-positive amounts raise; an insufficient balance returns `False` without
mutating anything; otherwise the balance is decremented in place. -/
def withdraw (amount : ℚ) (currency : String) (now : ℚ) (w : DigitalWallet) :
    Except String (Bool × DigitalWallet) :=
  if currency ∉ w.supported_currencies then Except.error "Unsupported currency"
  else if amount ≤ 0 then Except.error "Withdrawal amount must be positive"
  else if dGetD w.balances currency 0 < amount then Except.ok (false, w)
  else
    match dUpd w.balances currency (fun v => v - amount) with
    | none => Except.error ("KeyError: " ++ currency)
    | some b' =>
      Except.ok (true,
        { w with
          balances := b',
          transaction_history := w.transaction_history ++
            [{ rtype := "withdrawal", amount := amount, currency := currency,
               timestamp := now, balance_after := dGetD b' currency 0 }] })

/-- `DigitalWallet.create_transaction` (lines 166-238): one input spending
`amount + fee` from the wallet's own address, one output to the recipient and
one to the `network_fee` collector; the transaction is signed and the balance
decremented by the total. -/
def create_transaction (H : String → String)
    (signFn : String → String → String) (recipient_address : String)
    (amount : ℚ) (currency : String) (fee : ℚ) (now : ℚ) (nonceV : ℕ)
    (w : DigitalWallet) : Except String (Transaction × DigitalWallet) :=
  if currency ∉ w.supported_currencies then Except.error "Unsupported currency"
  else
    let total_amount := amount + fee
    if dGetD w.balances currency 0 < total_amount then
      Except.error "Insufficient balance"
    else
      let inputs : List TxInput :=
        [{ address := some w.address, amount := some total_amount,
           currency := some currency }]
      let outputs : List TxOutput :=
        [{ address := some recipient_address, amount := some amount,
           currency := some currency },
         { address := some "network_fee", amount := some fee,
           currency := some currency }]
      match (mkTransaction inputs outputs (some w.public_key) now
          nonceV).sign H signFn w.private_key with
      | Except.error e => Except.error e
      | Except.ok tx =>
        match dUpd w.balances currency (fun v => v - total_amount) with
        | none => Except.error ("KeyError: " ++ currency)
        | some b' =>
          Except.ok (tx,
            { w with
              balances := b',
              transaction_history := w.transaction_history ++
                [{ rtype := "transfer", amount := amount, currency := currency,
                   timestamp := now, balance_after := dGetD b' currency 0,
                   fee := some fee, recipient := some recipient_address,
                   transaction_id := some (txHash H tx) }] })

/-- `DigitalWallet.receive_transaction` (lines 240-285): reject on a bad
signature; scan the outputs for the first one addressed to this wallet
(Python's for-loop with `break`); reject when the received amount is not
positive; otherwise credit the named currency — `self.balances[cr] += ar`
raises `KeyError` when `cr` has no balance entry. -/
def receive_transaction (H : String → String) (verify : Transaction → Bool)
    (now : ℚ) (tx : Transaction) (w : DigitalWallet) :
    Except String (Bool × DigitalWallet) :=
  if ! verify tx then Except.ok (false, w)
  else
    match tx.outputs.find? (fun o => o.address == some w.address) with
    | none => Except.ok (false, w)
    | some o =>
      let amount_received := o.amount.getD 0
      if amount_received ≤ 0 then Except.ok (false, w)
      else
        let currency_received := o.currency.getD "AETH"
        match dUpd w.balances currency_received (fun v => v + amount_received) with
        | none => Except.error ("KeyError: " ++ currency_received)
        | some b' =>
          Except.ok (true,
            { w with
              balances := b',
              transaction_history := w.transaction_history ++
                [{ rtype := "receive", amount := amount_received,
                   currency := currency_received, timestamp := now,
                   balance_after := dGetD b' currency_received 0,
                   transaction_id := some (txHash H tx),
                   sender := some tx.public_key }] })

theorem dGetD_dSet_self (m : List (String × ℚ)) (k : String) (v d : ℚ) :
    dGetD (dSet m k v) k d = v := by
  rw [dGetD, dGet_dSet_self]
  rfl

theorem dGetD_dSet_ne (m : List (String × ℚ)) {k k' : String} (v d : ℚ)
    (h : k' ≠ k) : dGetD (dSet m k v) k' d = dGetD m k' d := by
  rw [dGetD, dGet_dSet_ne m v h]
  rfl

/-- C8: for a supported currency and a positive amount, `withdraw` returns
`False` and leaves the wallet — hence every balance — untouched when the
balance is below the amount, and otherwise returns `True`, decreases exactly
that currency's balance by the amount, and leaves every other currency's
balance unchanged; neither case raises. -/
theorem withdraw_spec (a : ℚ) (c : String) (now : ℚ) (w : DigitalWallet)
    (hc : c ∈ w.supported_currencies) (ha : 0 < a) :
    (dGetD w.balances c 0 < a → withdraw a c now w = Except.ok (false, w)) ∧
    (a ≤ dGetD w.balances c 0 →
      withdraw a c now w = Except.ok (true,
        { w with
          balances := dSet w.balances c (dGetD w.balances c 0 - a),
          transaction_history := w.transaction_history ++
            [{ rtype := "withdrawal", amount := a, currency := c,
               timestamp := now,
               balance_after := dGetD w.balances c 0 - a }] }) ∧
      dGetD (dSet w.balances c (dGetD w.balances c 0 - a)) c 0 =
        dGetD w.balances c 0 - a ∧
      ∀ c' : String, c' ≠ c →
        dGetD (dSet w.balances c (dGetD w.balances c 0 - a)) c' 0 =
          dGetD w.balances c' 0) := by
  constructor
  · intro hlt
    rw [withdraw, if_neg (not_not_intro hc), if_neg (not_le.mpr ha),
      if_pos hlt]
  · intro hge
    have hv : dGet w.balances c = some (dGetD w.balances c 0) := by
      cases hg : dGet w.balances c with
      | none =>
        rw [dGetD, hg] at hge
        simp at hge
        exact absurd hge (not_le.mpr ha)
      | some v =>
        rw [dGetD, hg]
        rfl
    refine ⟨?_, dGetD_dSet_self w.balances c _ 0,
      fun c' hc' => dGetD_dSet_ne w.balances _ 0 hc'⟩
    rw [withdraw, if_neg (not_not_intro hc), if_neg (not_le.mpr ha),
      if_neg (not_lt.mpr hge)]
    simp only [dUpd, hv, dGetD_dSet_self]

/-- A concrete wallet state holding 100 AETH, used by the wallet witnesses
and the C10 counterexample. -/
def wValW : DigitalWallet :=
  { wallet_id := "test_wallet", address := "addr", private_key := "priv",
    public_key := "pub",
    balances := [("AETH", 100), ("BTC", 0), ("ETH", 0), ("USDC", 0)],
    supported_currencies := supportedCurrencies, transaction_history := [] }

/-- Witness for C8: withdrawing 50 AETH from a 100-AETH wallet succeeds and
leaves 50. -/
theorem withdraw_spec_witness :
    withdraw 50 "AETH" 0 wValW = Except.ok (true,
      { wValW with
        balances := dSet wValW.balances "AETH" (dGetD wValW.balances "AETH" 0 - 50),
        transaction_history := wValW.transaction_history ++
          [{ rtype := "withdrawal", amount := 50, currency := "AETH",
             timestamp := 0,
             balance_after := dGetD wValW.balances "AETH" 0 - 50 }] }) :=
  ((withdraw_spec 50 "AETH" 0 wValW (by decide) (by norm_num)).2
    (by norm_num [wValW, dGetD, dGet])).1

/-- The transaction that `create_transaction` builds and signs: one input
spending `amount + fee` from the wallet's address and two outputs (recipient,
then the `network_fee` collector), with the signature stored over the
pre-signature identity hash. -/
def sentTransaction (H : String → String)
    (signFn : String → String → String) (recipient_address : String)
    (amount fee : ℚ) (currency : String) (now : ℚ) (nonceV : ℕ)
    (w : DigitalWallet) : Transaction :=
  let tx0 := mkTransaction
    [{ address := some w.address, amount := some (amount + fee),
       currency := some currency }]
    [{ address := some recipient_address, amount := some amount,
       currency := some currency },
     { address := some "network_fee", amount := some fee,
       currency := some currency }]
    (some w.public_key) now nonceV
  { tx0 with signature := some (signFn w.private_key (txHash H tx0)) }

/-- C9: for a supported currency with a balance entry and a balance covering
`amount + fee`, `create_transaction` returns the signed two-output
transaction — exactly one input spending `amount + fee` from the wallet's
own address, one output of `amount` to the recipient and one of `fee` to the
`network_fee` address — and decreases the wallet's balance in that currency
by exactly `amount + fee`.  (Every wallet the source can construct has a
balance entry for each supported currency, so the entry hypothesis is the
constructor's representation invariant.) -/
theorem create_transaction_spec (H : String → String)
    (signFn : String → String → String) (r : String) (a f : ℚ) (c : String)
    (now : ℚ) (nonceV : ℕ) (w : DigitalWallet)
    (hc : c ∈ w.supported_currencies)
    (hk : (dGet w.balances c).isSome = true)
    (hbal : a + f ≤ dGetD w.balances c 0) :
    create_transaction H signFn r a c f now nonceV w = Except.ok
      (sentTransaction H signFn r a f c now nonceV w,
        { w with
          balances := dSet w.balances c (dGetD w.balances c 0 - (a + f)),
          transaction_history := w.transaction_history ++
            [{ rtype := "transfer", amount := a, currency := c,
               timestamp := now,
               balance_after := dGetD w.balances c 0 - (a + f),
               fee := some f, recipient := some r,
               transaction_id := some (txHash H
                 (sentTransaction H signFn r a f c now nonceV w)) }] }) ∧
    (sentTransaction H signFn r a f c now nonceV w).inputs =
      [{ address := some w.address, amount := some (a + f),
         currency := some c }] ∧
    (sentTransaction H signFn r a f c now nonceV w).outputs =
      [{ address := some r, amount := some a, currency := some c },
       { address := some "network_fee", amount := some f,
         currency := some c }] ∧
    ((sentTransaction H signFn r a f c now nonceV w).signature).isSome = true ∧
    dGetD (dSet w.balances c (dGetD w.balances c 0 - (a + f))) c 0 =
      dGetD w.balances c 0 - (a + f) := by
  have hv : dGet w.balances c = some (dGetD w.balances c 0) := by
    cases hg : dGet w.balances c with
    | none => rw [hg] at hk; simp at hk
    | some v =>
      rw [dGetD, hg]
      rfl
  refine ⟨?_, rfl, rfl, rfl, dGetD_dSet_self w.balances c _ 0⟩
  rw [create_transaction, if_neg (not_not_intro hc),
    if_neg (not_lt.mpr hbal)]
  simp only [Transaction.sign, mkTransaction, List.isEmpty_cons,
    Bool.or_self, Bool.false_eq_true, if_false, dUpd, hv, dGetD_dSet_self]
  rfl

def signW : String → String → String := fun _ _ => "sig"

/-- Witness for C9: sending 25 AETH (fee 1/10000) from a 100-AETH wallet
yields the one-input two-output signed transaction and the decremented
balance. -/
theorem create_transaction_spec_witness :
    (sentTransaction hashW signW "recipient_addr" 25 (1 / 10000) "AETH" 0 9
        wValW).outputs =
      [{ address := some "recipient_addr", amount := some 25,
         currency := some "AETH" },
       { address := some "network_fee", amount := some (1 / 10000),
         currency := some "AETH" }] ∧
    dGetD (dSet wValW.balances "AETH"
        (dGetD wValW.balances "AETH" 0 - (25 + 1 / 10000))) "AETH" 0 =
      dGetD wValW.balances "AETH" 0 - (25 + 1 / 10000) := by
  have h := create_transaction_spec hashW signW "recipient_addr" 25
    (1 / 10000) "AETH" 0 9 wValW (by decide) (by decide)
    (by norm_num [wValW, dGetD, dGet])
  exact ⟨h.2.2.1, h.2.2.2.2⟩

/-! ### Claim C10 (`receive_transaction`). -/

/-- C10 (amended): `receive_transaction` returns `False` with the wallet
untouched when the signature check fails, when no output is addressed to the
wallet, or when the first such output's amount is not positive; when the
first matching output carries a positive amount it credits exactly that
amount in that output's currency (defaulting to AETH) and returns `True` —
provided that currency has a balance entry; if it has none, the call raises
`KeyError` instead of returning. -/
theorem receive_transaction_spec (H : String → String)
    (verify : Transaction → Bool) (now : ℚ) (tx : Transaction)
    (w : DigitalWallet) :
    (verify tx = false →
      receive_transaction H verify now tx w = Except.ok (false, w)) ∧
    (tx.outputs.find? (fun o => o.address == some w.address) = none →
      receive_transaction H verify now tx w = Except.ok (false, w)) ∧
    (∀ o : TxOutput,
      tx.outputs.find? (fun o => o.address == some w.address) = some o →
      o.amount.getD 0 ≤ 0 →
      receive_transaction H verify now tx w = Except.ok (false, w)) ∧
    (∀ o : TxOutput, verify tx = true →
      tx.outputs.find? (fun o => o.address == some w.address) = some o →
      0 < o.amount.getD 0 →
      dGet w.balances (o.currency.getD "AETH") = none →
      receive_transaction H verify now tx w =
        Except.error ("KeyError: " ++ o.currency.getD "AETH")) ∧
    (∀ (o : TxOutput) (v : ℚ), verify tx = true →
      tx.outputs.find? (fun o => o.address == some w.address) = some o →
      0 < o.amount.getD 0 →
      dGet w.balances (o.currency.getD "AETH") = some v →
      receive_transaction H verify now tx w = Except.ok (true,
        { w with
          balances := dSet w.balances (o.currency.getD "AETH")
            (v + o.amount.getD 0),
          transaction_history := w.transaction_history ++
            [{ rtype := "receive", amount := o.amount.getD 0,
               currency := o.currency.getD "AETH", timestamp := now,
               balance_after := v + o.amount.getD 0,
               transaction_id := some (txHash H tx),
               sender := some tx.public_key }] }) ∧
      dGetD (dSet w.balances (o.currency.getD "AETH")
          (v + o.amount.getD 0)) (o.currency.getD "AETH") 0 =
        dGetD w.balances (o.currency.getD "AETH") 0 + o.amount.getD 0 ∧
      ∀ c' : String, c' ≠ o.currency.getD "AETH" →
        dGetD (dSet w.balances (o.currency.getD "AETH")
            (v + o.amount.getD 0)) c' 0 = dGetD w.balances c' 0) := by
  refine ⟨fun hv => ?_, fun hf => ?_, fun o hf ha => ?_,
    fun o hv hf ha hg => ?_, fun o v hv hf ha hg => ?_⟩
  · rw [receive_transaction]
    simp [hv]
  · cases hb : verify tx with
    | false =>
      rw [receive_transaction]
      simp [hb]
    | true =>
      rw [receive_transaction]
      simp only [hb, Bool.not_true, Bool.false_eq_true, if_false, hf]
  · cases hb : verify tx with
    | false =>
      rw [receive_transaction]
      simp [hb]
    | true =>
      rw [receive_transaction]
      simp only [hb, Bool.not_true, Bool.false_eq_true, if_false, hf,
        if_pos ha]
  · rw [receive_transaction]
    simp only [hv, Bool.not_true, Bool.false_eq_true, if_false, hf,
      if_neg (not_le.mpr ha), dUpd, hg]
  · have hdg : dGetD w.balances (o.currency.getD "AETH") 0 = v := by
      rw [dGetD, hg]
      rfl
    refine ⟨?_, by rw [dGetD_dSet_self, hdg],
      fun c' hc' => dGetD_dSet_ne w.balances _ 0 hc'⟩
    rw [receive_transaction]
    simp only [hv, Bool.not_true, Bool.false_eq_true, if_false, hf,
      if_neg (not_le.mpr ha), dUpd, hg, dGetD_dSet_self]

def verifyTrue : Transaction → Bool := fun _ => true

/-- A validly-signed transaction whose first output pays 5 units of the
unsupported currency `DOGE` to `wValW`'s address. -/
def txDoge : Transaction :=
  { inputs := [{ tx_id := some "i", amount := some 5 }],
    outputs := [{ address := some "addr", amount := some 5,
                  currency := some "DOGE" }],
    public_key := some "pub", signature := some "sig",
    timestamp := 0, nonce := 1 }

/-- C10 counterexample: the claim predicts that a verified transaction whose
first output to the wallet carries a positive amount is credited with `True`
returned; on this input the source instead raises `KeyError` (the credited
currency `DOGE` has no entry in `balances`), so the call neither credits nor
returns. -/
theorem receive_transaction_claim_counterexample :
    receive_transaction hashW verifyTrue 0 txDoge wValW =
      Except.error "KeyError: DOGE" := rfl

/-- A validly-signed transaction paying 5 AETH to `wValW`'s address. -/
def txAeth : Transaction :=
  { inputs := [{ tx_id := some "i", amount := some 5 }],
    outputs := [{ address := some "addr", amount := some 5,
                  currency := some "AETH" }],
    public_key := some "pub", signature := some "sig",
    timestamp := 0, nonce := 2 }

/-- Witness for C10 (amended): receiving 5 AETH into the 100-AETH wallet
succeeds and credits exactly 5. -/
theorem receive_transaction_spec_witness :
    receive_transaction hashW verifyTrue 0 txAeth wValW = Except.ok (true,
      { wValW with
        balances := dSet wValW.balances "AETH" (100 + 5),
        transaction_history := wValW.transaction_history ++
          [{ rtype := "receive", amount := 5, currency := "AETH",
             timestamp := 0, balance_after := 100 + 5,
             transaction_id := some (txHash hashW txAeth),
             sender := some txAeth.public_key }] }) :=
  ((receive_transaction_spec hashW verifyTrue 0 txAeth wValW).2.2.2.2
    { address := some "addr", amount := some 5, currency := some "AETH" }
    100 rfl rfl (by norm_num) rfl).1
